import Mathlib

/-!
Verification development for the `lminc` repository: a simulator, assembler and
binary codec for the Little Minion Computer (100 memory cells of three-digit
numbers, one accumulator register).

The Rust sources are shallowly embedded: `u16`/`usize` values become `Nat` with
explicit `% 2^w` truncation only where the source can overflow, arrays become
`List Nat` (all indices used by the embedded code stay in bounds, so `List.set`
and `List.getD` agree with Rust's panicking indexing on every reachable state),
iterators become lists, and fallible functions return `Except`.
-/

namespace LMinC

/-! ## `src/lib/num3.rs` — `ThreeDigitNumber`

`ThreeDigitNumber(u16)` is modelled as a bare `Nat`; the type invariant
(value ≤ 999) is carried as a hypothesis where it matters.  The `u16`
arithmetic below cannot overflow for values ≤ 999, so no `% 65536` is needed. -/

/-- Model of `impl Add for ThreeDigitNumber`: `Self((self.0 + rhs.0) % 1000)`
(the `AddAssign` impl computes the same value). -/
def n3_add (a b : Nat) : Nat := (a + b) % 1000

/-- Model of `impl Sub for ThreeDigitNumber`:
`(Self((self.0 + 1000 - rhs.0) % 1000), self < rhs)`. -/
def n3_sub (a b : Nat) : Nat × Bool := ((a + 1000 - b) % 1000, decide (a < b))

/-! ## `src/lib/computer.rs` — the virtual machine

The build without the optional `extended` cargo feature is modelled: the
`State` variants, instructions and fields guarded by `#[cfg(feature =
"extended")]` are absent in that configuration. -/

/-- Model of `computer::State` (non-extended build). -/
inductive State where
  | Running
  | AwaitingInput
  | AwaitingOutput
  | Halted
  | ReachedEnd
  | InvalidInstruction
deriving DecidableEq, Repr

/-- Model of `computer::Computer`.  `Memory = [ThreeDigitNumber; 100]` becomes
a `List Nat` of length 100. -/
structure Computer where
  state : State
  memory : List Nat
  counter : Nat
  register : Nat
  negative_flag : Bool
deriving DecidableEq, Repr

/-- Model of `Computer::new`. -/
def Computer.new (memory : List Nat) : Computer :=
  { state := State.Running, memory := memory, counter := 0, register := 0,
    negative_flag := false }

/-- Model of `Computer::step`.  The Rust function mutates `self` and returns
`self.state`; the model returns the new computer, whose `state` field is
exactly the returned `State` (every `return self.state` in the source returns
the state after all mutations of that path).  Paths that fall through the
`match` reach `self.counter += 1`; paths that `return` early do not. -/
def Computer.step (c : Computer) : Computer :=
  if c.state ≠ State.Running then c
  else if c.counter = 100 then { c with state := State.ReachedEnd }
  else
    let instruction := c.memory.getD c.counter 0
    let op_code := instruction / 100
    let data := instruction % 100
    match op_code with
    | 1 => { c with register := n3_add c.register (c.memory.getD data 0),
                    counter := c.counter + 1 }
    | 2 =>
      let r := n3_sub c.register (c.memory.getD data 0)
      { c with register := r.1, negative_flag := r.2, counter := c.counter + 1 }
    | 3 => { c with memory := c.memory.set data c.register, counter := c.counter + 1 }
    | 5 => { c with register := c.memory.getD data 0, counter := c.counter + 1 }
    | 6 => { c with counter := data }
    | 7 =>
      if c.register = 0 then { c with counter := data }
      else { c with counter := c.counter + 1 }
    | 8 =>
      if ¬c.negative_flag then { c with counter := data }
      else { c with counter := c.counter + 1 }
    | 9 =>
      match data with
      | 1 => { c with state := State.AwaitingInput, counter := c.counter + 1 }
      | 2 => { c with state := State.AwaitingOutput, counter := c.counter + 1 }
      | _ => { c with state := State.InvalidInstruction }
    | 0 => { c with state := State.Halted, counter := c.counter + 1 }
    | _ => { c with state := State.InvalidInstruction }

/-- Model of `Computer::run` exactly as written in the source:
`while self.step() != State::Running {}  self.state`.
The loop body is empty, so each test of the condition performs one `step`;
the loop keeps going while the state returned by `step` is NOT `Running` and
exits (returning the computer) as soon as a step leaves the computer
`Running`.  `fuel` bounds the number of loop iterations; `none` means the
loop did not exit within `fuel` iterations. -/
def Computer.runFuel : Nat → Computer → Option Computer
  | 0, _ => none
  | fuel + 1, c =>
    let c' := c.step
    if c'.state ≠ State.Running then Computer.runFuel fuel c' else some c'

/-- Model of `computer::Error` (non-extended build). -/
inductive CError where
  | UnexpectedInput
  | NoOutput
deriving DecidableEq, Repr

/-- Model of `Computer::input`. -/
def Computer.input (c : Computer) (i : Nat) : Except CError Computer :=
  if c.state = State.AwaitingInput then
    Except.ok { c with register := i, state := State.Running }
  else Except.error CError.UnexpectedInput

/-- Model of `Computer::output`: returns the register and the new computer. -/
def Computer.output (c : Computer) : Except CError (Nat × Computer) :=
  if c.state = State.AwaitingOutput then
    Except.ok (c.register, { c with state := State.Running })
  else Except.error CError.NoOutput

/-- Model of `Computer::reset`: clears everything except the memory. -/
def Computer.reset (c : Computer) : Computer :=
  { c with state := State.Running, counter := 0, register := 0,
           negative_flag := false }

/-- Model of `computer::SetCounterError`. -/
inductive SetCounterError where
  | TooLarge
deriving DecidableEq, Repr

/-- Model of `Computer::set_counter`. -/
def Computer.set_counter (c : Computer) (value : Nat) :
    Except SetCounterError Computer :=
  if value > 100 then Except.error SetCounterError.TooLarge
  else Except.ok { c with counter := value }

/-! ## `src/lib/file/` — the binary codec

Bytes are `Nat` values < 256 (`u8`), widened to `u16` by the source before
the bit manipulation; `<<<`, `>>>`, `|||` and the `% 0b100_0000_0000` /
`as u8` truncations are modelled with the corresponding `Nat` operations. -/

/-- Model of `file::MAX_FILE_SIZE`. -/
def MAX_FILE_SIZE : Nat := 125

/-- Model of `file::load::Error`. -/
inductive LoadError where
  | BufferTooLarge (size : Nat)
  | InvalidNumber (index : Nat) (number : Nat)
deriving DecidableEq, Repr

/-- The loop state of `load_from_buffer`: the memory being reconstructed, the
current `address` and the current bit `offset`. -/
structure LoadSt where
  memory : List Nat
  address : Nat
  offset : Nat
deriving DecidableEq, Repr

/-- One iteration of the `for (index, byte) in buffer.iter().enumerate()`
loop of `load_from_buffer`.  All `memory[...]` indices stay below 100 for
buffers of at most `MAX_FILE_SIZE` bytes, so `List.set`/`List.getD` agree
with Rust's array indexing there. -/
def loadStep (index : Nat) (st : LoadSt) (byte : Nat) : Except LoadError LoadSt :=
  let lower := byte >>> (10 - st.offset)
  let upper := (byte <<< st.offset) % 1024
  let mem1 := st.memory.set st.address ((st.memory.getD st.address 0) ||| lower)
  -- the source checks and increments only when `index != 0`; the early
  -- `return Err` is the case where the check runs and fails
  if index ≠ 0 ∧ mem1.getD st.address 0 > 999 then
    Except.error (LoadError.InvalidNumber st.address (mem1.getD st.address 0))
  else
    let address := if index = 0 then st.address else st.address + 1
    let mem2 := mem1.set address ((mem1.getD address 0) ||| upper)
    let offset := st.offset + 2
    if offset = 10 then Except.ok ⟨mem2, address - 1, 0⟩
    else Except.ok ⟨mem2, address, offset⟩

/-- The whole loop of `load_from_buffer`, carrying the enumeration index;
an error aborts the loop (the `return Err(..)` in the source). -/
def loadGo : Nat → LoadSt → List Nat → Except LoadError (List Nat)
  | _, st, [] => Except.ok st.memory
  | index, st, byte :: rest =>
    match loadStep index st byte with
    | Except.error e => Except.error e
    | Except.ok st' => loadGo (index + 1) st' rest

/-- Model of `file::load::load_from_buffer`.  The final
`Ok(unsafe { mem::transmute(memory) })` becomes returning the word list
as-is (the transmute reinterprets the `[u16; 100]` as `[ThreeDigitNumber; 100]`
without any further check). -/
def load_from_buffer (buffer : List Nat) : Except LoadError (List Nat) :=
  if buffer.length > MAX_FILE_SIZE then
    Except.error (LoadError.BufferTooLarge buffer.length)
  else loadGo 0 ⟨List.replicate 100 0, 0, 2⟩ buffer

/-- The loop state of `save_to_buffer`: the byte buffer, the byte `index` and
the bit `offset`. -/
structure SaveSt where
  buffer : List Nat
  index : Nat
  offset : Nat
deriving DecidableEq, Repr

/-- One iteration of the `for number in memory` loop of `save_to_buffer`.
`(number >> offset) as u8` and `(number << (8 - offset)) as u8` truncate to a
byte, hence the `% 256`. -/
def saveStep (st : SaveSt) (number : Nat) : SaveSt :=
  let lower := (number >>> st.offset) % 256
  let upper := (number <<< (8 - st.offset)) % 256
  let buf1 := st.buffer.set st.index ((st.buffer.getD st.index 0) ||| lower)
  let index := st.index + 1
  let buf2 := buf1.set index ((buf1.getD index 0) ||| upper)
  let offset := st.offset + 2
  if offset = 10 then ⟨buf2, index + 1, 2⟩ else ⟨buf2, index, offset⟩

/-- The whole loop of `save_to_buffer`. -/
def saveGo (st : SaveSt) : List Nat → SaveSt
  | [] => st
  | n :: rest => saveGo (saveStep st n) rest

/-- The trimming step of `save_to_buffer`: the returned slice is
`buffer[..=last_index]` for the last index holding a non-zero byte, and the
empty slice when every byte is zero — i.e. the buffer with its trailing zero
bytes removed. -/
def trimZeros (l : List Nat) : List Nat :=
  (l.reverse.dropWhile (· == 0)).reverse

/-- Model of `file::save::save_to_buffer`.  Every caller in the repository
passes a freshly zeroed `[0; MAX_FILE_SIZE]` buffer, which the function fills
by `|=` and then trims; the model starts from that zero buffer. -/
def save_to_buffer (memory : List Nat) : List Nat :=
  trimZeros (saveGo ⟨List.replicate 125 0, 0, 2⟩ memory).buffer

/-- Proof-side closed form for one 4-word block of `saveGo` output (5 bytes,
bit offsets 2, 4, 6, 8 and the full low byte of the fourth word). -/
def encBlock (w0 w1 w2 w3 : Nat) : List Nat :=
  [(w0 >>> 2) % 256,
   ((w0 <<< 6) % 256) ||| ((w1 >>> 4) % 256),
   ((w1 <<< 4) % 256) ||| ((w2 >>> 6) % 256),
   ((w2 <<< 2) % 256) ||| ((w3 >>> 8) % 256),
   (w3 <<< 0) % 256]

/-- Proof-side closed form of the untrimmed `saveGo` output: the
concatenation of the 5-byte encodings of the 4-word blocks. -/
def encBytes : List Nat → List Nat
  | w0 :: w1 :: w2 :: w3 :: ws => encBlock w0 w1 w2 w3 ++ encBytes ws
  | _ => []

/-! ## String helpers shared by the parser and the number assembler -/

/-- Model of Rust's `str::parse::<u16>`: an optional leading `+` sign followed
by one or more ASCII digits, with values above `u16::MAX` rejected
(`PosOverflow`).  Returns `none` on any parse failure. -/
def parseU16 (s : String) : Option Nat :=
  let cs := match s.data with
    | '+' :: rest => rest
    | cs => cs
  if cs = [] then none
  else if cs.all (fun c => c.isDigit) then
    let v := cs.foldl (fun acc c => acc * 10 + (c.toNat - '0'.toNat)) 0
    if v ≤ 65535 then some v else none
  else none

/-- Model of `line.split(&['#', ';'][..]).next()`: the prefix of the line
before the first comment marker (the whole line when there is none). -/
def beforeComment (line : String) : String :=
  ⟨line.data.takeWhile (fun c => c ≠ '#' ∧ c ≠ ';')⟩

/-- Model of Rust's `str::trim`: leading and trailing whitespace removed
(written with plain list operations so that it evaluates by reduction). -/
def trimStr (s : String) : String :=
  ⟨((s.data.dropWhile (fun c => c.isWhitespace)).reverse.dropWhile
      (fun c => c.isWhitespace)).reverse⟩

/-- Model of `helper::case_insensitive::Char` equality:
`self.to_ascii_lowercase() == other || self.to_ascii_uppercase() == other`. -/
def ciCharEq (a b : Char) : Bool := a.toLower == b || a.toUpper == b

/-- Model of `helper::case_insensitive::Str`'s `PartialEq<&str>`: equal
lengths and pointwise case-insensitive character equality.  (The source
compares byte lengths; for the all-ASCII mnemonic patterns the two notions
give the same verdict on every input.) -/
def ciStrEq (s m : String) : Bool :=
  s.length == m.length && (s.data.zip m.data).all fun p => ciCharEq p.1 p.2

/-! ## `src/lib/assembly.rs` — instructions and operands -/

/-- Model of `assembly::Instruction<Data>` (non-extended build). -/
inductive Instruction (Data : Type) where
  | ADD (d : Data)
  | SUB (d : Data)
  | STO (d : Data)
  | LDA (d : Data)
  | BR (d : Data)
  | BRZ (d : Data)
  | BRP (d : Data)
  | IN
  | OUT
  | HLT
  | DAT (d : Data)
deriving DecidableEq, Repr

/-- Model of `TryFrom<&str> for Instruction<()>`: case-insensitive matching
against the mnemonic set (non-extended build), `none` for
`InvalidInstructionError`. -/
def instruction_try_from (s : String) : Option (Instruction Unit) :=
  if ciStrEq s "ADD" then some (Instruction.ADD ())
  else if ciStrEq s "SUB" then some (Instruction.SUB ())
  else if ciStrEq s "STO" || ciStrEq s "STA" then some (Instruction.STO ())
  else if ciStrEq s "LDA" then some (Instruction.LDA ())
  else if ciStrEq s "BR" || ciStrEq s "BRA" then some (Instruction.BR ())
  else if ciStrEq s "BRZ" then some (Instruction.BRZ ())
  else if ciStrEq s "BRP" then some (Instruction.BRP ())
  else if ciStrEq s "IN" || ciStrEq s "INP" then some Instruction.IN
  else if ciStrEq s "OUT" then some Instruction.OUT
  else if ciStrEq s "HLT" then some Instruction.HLT
  else if ciStrEq s "DAT" then some (Instruction.DAT ())
  else none

/-- Model of `assembly::NumberOrLabel`. -/
inductive NumberOrLabel where
  | Number (n : Nat)
  | Label (s : String)
deriving DecidableEq, Repr

/-- Model of `From<&str> for NumberOrLabel`:
`value.parse::<u16>().ok().and_then(|n| ThreeDigitNumber::try_from(n).ok())
.map_or(Self::Label(value), Self::Number)` — only a decimal value of at most
999 becomes a `Number`; anything else (including parseable values above 999)
stays a `Label`. -/
def numberOrLabel_from (s : String) : NumberOrLabel :=
  match parseU16 s with
  | some n => if n < 1000 then NumberOrLabel.Number n else NumberOrLabel.Label s
  | none => NumberOrLabel.Label s

/-- Model of `assembly::Error` (the data-presence errors). -/
inductive DataError where
  | ExpectedData
  | UnexpectedData
deriving DecidableEq, Repr

/-- Model of `parser::error::Error`. -/
inductive ParseError where
  | TooManyWords
  | TooManyInstructions
  | MultipleInstructions
  | UnexpectedNumber
  | NoInstruction
  | DataPresence (e : DataError)
  | UnknownLabel
deriving DecidableEq, Repr

/-- Model of `Instruction::<()>::try_insert_data`. -/
def try_insert_data (i : Instruction Unit) (data : Option NumberOrLabel) :
    Except ParseError (Instruction NumberOrLabel) :=
  match i, data with
  | Instruction.ADD (), some d => Except.ok (Instruction.ADD d)
  | Instruction.ADD (), none => Except.error (ParseError.DataPresence DataError.ExpectedData)
  | Instruction.SUB (), some d => Except.ok (Instruction.SUB d)
  | Instruction.SUB (), none => Except.error (ParseError.DataPresence DataError.ExpectedData)
  | Instruction.STO (), some d => Except.ok (Instruction.STO d)
  | Instruction.STO (), none => Except.error (ParseError.DataPresence DataError.ExpectedData)
  | Instruction.LDA (), some d => Except.ok (Instruction.LDA d)
  | Instruction.LDA (), none => Except.error (ParseError.DataPresence DataError.ExpectedData)
  | Instruction.BR (), some d => Except.ok (Instruction.BR d)
  | Instruction.BR (), none => Except.error (ParseError.DataPresence DataError.ExpectedData)
  | Instruction.BRP (), some d => Except.ok (Instruction.BRP d)
  | Instruction.BRP (), none => Except.error (ParseError.DataPresence DataError.ExpectedData)
  | Instruction.BRZ (), some d => Except.ok (Instruction.BRZ d)
  | Instruction.BRZ (), none => Except.error (ParseError.DataPresence DataError.ExpectedData)
  | Instruction.IN, some _ => Except.error (ParseError.DataPresence DataError.UnexpectedData)
  | Instruction.IN, none => Except.ok Instruction.IN
  | Instruction.OUT, some _ => Except.error (ParseError.DataPresence DataError.UnexpectedData)
  | Instruction.OUT, none => Except.ok Instruction.OUT
  | Instruction.HLT, some _ => Except.error (ParseError.DataPresence DataError.UnexpectedData)
  | Instruction.HLT, none => Except.ok Instruction.HLT
  | Instruction.DAT (), some d => Except.ok (Instruction.DAT d)
  | Instruction.DAT (), none => Except.error (ParseError.DataPresence DataError.ExpectedData)

/-- Model of `assembly::InstructionWithLabel` (with resolved operand type
`NumberOrLabel`, as produced by the parser). -/
structure InstrWithLabel where
  label : Option String
  instruction : Instruction NumberOrLabel
deriving DecidableEq, Repr

/-- Model of `InstructionWithLabel::<NumberOrLabel>::parse` from
`src/lib/parser/mod.rs`: classify between one and three words into an
optional label, one instruction and optional data.  The `?`-style early
returns of the source are written as explicit matches on `Except`. -/
def instruction_parse (first : String) (second third : Option String) :
    Except ParseError InstrWithLabel :=
  -- The first word should be an instruction or a label
  match
    (match instruction_try_from first with
     | some inst => Except.ok ((none : Option String), some inst)
     | none =>
       -- Make sure the first word is not a number
       match numberOrLabel_from first with
       | NumberOrLabel.Number _ => Except.error ParseError.UnexpectedNumber
       | NumberOrLabel.Label lab =>
         Except.ok (some lab, (none : Option (Instruction Unit)))) with
  | Except.error e => Except.error e
  | Except.ok (label, instruction0) =>
    -- The second word should be an instruction or data
    match
      (match second with
       | none => Except.ok (instruction0, (none : Option NumberOrLabel))
       | some w =>
         match instruction_try_from w with
         | some inst =>
           match instruction0 with
           | some _ => Except.error ParseError.MultipleInstructions
           | none => Except.ok (some inst, none)
         | none => Except.ok (instruction0, some (numberOrLabel_from w))) with
    | Except.error e => Except.error e
    | Except.ok (instruction1, data0) =>
      -- The third word must be data
      match
        (match third with
         | none => Except.ok data0
         | some w =>
           if (instruction_try_from w).isSome then
             Except.error ParseError.MultipleInstructions
           else
             match data0 with
             | some _ => Except.error ParseError.TooManyWords
             | none => Except.ok (some (numberOrLabel_from w))) with
      | Except.error e => Except.error e
      | Except.ok data =>
        match instruction1 with
        | none => Except.error ParseError.NoInstruction
        | some inst =>
          match try_insert_data inst data with
          | Except.error e => Except.error e
          | Except.ok inst2 => Except.ok ⟨label, inst2⟩

/-! ## `src/lib/number_assembler.rs` — the numeral assembler -/

/-- Model of `number_assembler::FromNumbersError` (the `ParseIntError` /
`TryFromError` payloads carry no information used by the claims). -/
inductive FromNumbersError where
  | TooManyNumbers
  | InvalidNumber
  | TooLarge
deriving DecidableEq, Repr

/-- Model of `number_assembler::NumberAssembler`. -/
structure NumberAssembler where
  memory : List Nat
  index : Nat
deriving DecidableEq, Repr

/-- Model of `NumberAssembler::new`. -/
def NumberAssembler.new : NumberAssembler := ⟨List.replicate 100 0, 0⟩

/-- Model of `NumberAssembler::assemble_line`. -/
def NumberAssembler.assemble_line (a : NumberAssembler) (line : String) :
    Except FromNumbersError NumberAssembler :=
  -- Make sure there is space for a number
  if a.index = 100 then Except.error FromNumbersError.TooManyNumbers
  else
    -- Get the part of the line before any comments
    let code := beforeComment line
    if code = "" then Except.ok a
    else
      -- Try to parse as a u16 then try to convert to a three digit number
      match parseU16 (trimStr code) with
      | none => Except.error FromNumbersError.InvalidNumber
      | some n =>
        if n < 1000 then Except.ok ⟨a.memory.set a.index n, a.index + 1⟩
        else Except.error FromNumbersError.TooLarge

/-- The `text.lines().enumerate().try_for_each(..)` loop of
`assemble_from_text`; `lineNo` is the 0-based enumeration index and errors
carry `LineNumber(line_number + 1)`. -/
def assembleGo (a : NumberAssembler) (lineNo : Nat) :
    List String → Except (Nat × FromNumbersError) (List Nat)
  | [] => Except.ok a.memory
  | l :: ls =>
    match a.assemble_line l with
    | Except.error e => Except.error (lineNo + 1, e)
    | Except.ok a' => assembleGo a' (lineNo + 1) ls

/-- Model of `NumberAssembler::assemble_from_text`, taking the source text as
its list of lines (Rust's `str::lines`). -/
def assemble_from_text (lines : List String) :
    Except (Nat × FromNumbersError) (List Nat) :=
  assembleGo NumberAssembler.new 0 lines

/-- A line that consumes one of the assembler's 100 slots: its text before
any comment marker is non-empty (`assemble_line`'s `filter`). -/
def numberLine (l : String) : Bool := beforeComment l != ""

/-- A line the assembler accepts: either it is skipped (empty before any
comment marker), or its trimmed text parses as a `u16` of at most 999. -/
def okLine (l : String) : Bool :=
  !numberLine l ||
    (match parseU16 (trimStr (beforeComment l)) with
     | some n => decide (n < 1000)
     | none => false)

/-! ## `src/lib/runner/tester/mod.rs` — the test harness

The input/output iterators become lists (`next` = head), the non-extended
build is modelled, and `ErrorWithOptionalTestName<ErrorWithCycles<..>>`
becomes a flat record of the optional test name, the cycle count and the
error. -/

/-- Model of `tester::Test` (non-extended build). -/
structure Test where
  name : Option String
  max_cycles : Nat
  inputs : List Nat
  outputs : List Nat
deriving DecidableEq, Repr

/-- Model of `tester::TestError` (non-extended build). -/
inductive TestError where
  | RunOutOfCycles
  | RunOutOfInputs
  | RunOutOfOutputs (got : Nat)
  | DifferentOutput (expected got : Nat)
  | ExpectedMoreInputs
  | ExpectedMoreOutputs
  | ComputerError (s : State)
deriving DecidableEq, Repr

/-- Model of `ErrorWithOptionalTestName`: test name, cycle count, error. -/
structure TestErr where
  name : Option String
  cycles : Nat
  err : TestError
deriving DecidableEq, Repr

/-- Model of `Test::step`.  On success it returns the `done` flag, the new
computer and the new test state; the `*cycles += 1` at the end of the source
is performed by the caller (`runGo` passes `cycles + 1`).  The
`computer.input(..).expect(..)` / `computer.output().expect(..)` calls cannot
fail (the computer is in the matching awaiting state), so their success paths
are inlined. -/
def Test.step (c : Computer) (t : Test) (cycles : Nat) :
    Except TestErr (Bool × Computer × Test) :=
  if cycles = t.max_cycles then
    Except.error ⟨t.name, cycles, TestError.RunOutOfCycles⟩
  else
    let c' := c.step
    match c'.state with
    | State.Running => Except.ok (false, c', t)
    | State.AwaitingInput =>
      match t.inputs with
      | [] => Except.error ⟨t.name, cycles, TestError.RunOutOfInputs⟩
      | i :: rest =>
        Except.ok (false, { c' with register := i, state := State.Running },
                   { t with inputs := rest })
    | State.AwaitingOutput =>
      let output := c'.register
      let c'' := { c' with state := State.Running }
      match t.outputs with
      | [] => Except.error ⟨t.name, cycles, TestError.RunOutOfOutputs output⟩
      | e :: rest =>
        if output ≠ e then
          Except.error ⟨t.name, cycles, TestError.DifferentOutput e output⟩
        else Except.ok (false, c'', { t with outputs := rest })
    | State.Halted => Except.ok (true, c', t)
    | State.ReachedEnd => Except.ok (true, c', t)
    | State.InvalidInstruction =>
      Except.error ⟨t.name, cycles, TestError.ComputerError State.InvalidInstruction⟩

/-- The `while !Self::step(..)? {}` loop of `Test::run`.  Each successful
`step` increments `cycles`, and `step` fails as soon as `cycles` reaches
`max_cycles`, so the loop runs at most `max_cycles + 1 - cycles` more times;
the invariant `cycles ≤ t.max_cycles` (true at entry from `run`) makes this
a decreasing measure. -/
def Test.runGo (c : Computer) (t : Test) (cycles : Nat)
    (h : cycles ≤ t.max_cycles) : Except TestErr (Computer × Test × Nat) :=
  match hstep : Test.step c t cycles with
  | Except.error e => Except.error e
  | Except.ok (true, c', t') => Except.ok (c', t', cycles + 1)
  | Except.ok (false, c', t') =>
    Test.runGo c' t' (cycles + 1) (by
      simp only [Test.step] at hstep
      split at hstep
      · exact absurd hstep (by simp)
      · rename_i hne
        split at hstep <;> (try split at hstep) <;> (try split at hstep) <;>
          cases hstep <;> (show cycles + 1 ≤ t.max_cycles; omega))
termination_by t.max_cycles - cycles
decreasing_by
  simp only [Test.step] at hstep
  split at hstep
  · exact absurd hstep (by simp)
  · rename_i hne
    split at hstep <;> (try split at hstep) <;> (try split at hstep) <;>
      cases hstep <;> (show t.max_cycles - (cycles + 1) < t.max_cycles - cycles; omega)

/-- Model of `Test::run`: run the loop from zero cycles, then make sure all
the inputs and outputs were used. -/
def Test.run (t : Test) (c : Computer) : Except TestErr Nat :=
  match Test.runGo c t 0 (Nat.zero_le _) with
  | Except.error e => Except.error e
  | Except.ok (_, t', cycles) =>
    if t'.inputs ≠ [] then Except.error ⟨t'.name, cycles, TestError.ExpectedMoreInputs⟩
    else if t'.outputs ≠ [] then Except.error ⟨t'.name, cycles, TestError.ExpectedMoreOutputs⟩
    else Except.ok cycles

/-! ## Helper lemmas about the virtual machine -/

/-- Stepping a computer that is not `Running` changes nothing. -/
theorem step_stuck {c : Computer} (h : c.state ≠ State.Running) : c.step = c := by
  simp [Computer.step, h]

/-- One step preserves the counter invariant `counter ≤ 100`. -/
theorem step_counter_le {c : Computer} (hc : c.counter ≤ 100) :
    c.step.counter ≤ 100 := by
  by_cases hs : c.state = State.Running
  · by_cases h100 : c.counter = 100
    · simp [Computer.step, hs, h100]
    · simp only [Computer.step, hs, ne_eq, not_true_eq_false, if_false, h100, if_true]
      split <;> (try split) <;> simp <;> omega
  · rw [step_stuck hs]; exact hc

/-- The `run` loop preserves the counter invariant. -/
theorem runFuel_counter_le {c : Computer} (hc : c.counter ≤ 100) :
    ∀ fuel c', Computer.runFuel fuel c = some c' → c'.counter ≤ 100 := by
  intro fuel
  induction fuel generalizing c with
  | zero => intro c' h; exact absurd h (by simp [Computer.runFuel])
  | succ n ih =>
    intro c' h
    rw [Computer.runFuel] at h
    split at h
    · exact ih (step_counter_le hc) c' h
    · cases h; exact step_counter_le hc

/-- Once the state has left `Running`, the `run` loop of the source never
exits: stepping is a no-op, so the exit condition `step() == Running` stays
false forever. -/
theorem runFuel_none_of_stuck {c : Computer} (h : c.state ≠ State.Running) :
    ∀ fuel, Computer.runFuel fuel c = none := by
  intro fuel
  induction fuel generalizing c with
  | zero => rfl
  | succ n ih =>
    rw [Computer.runFuel]
    rw [step_stuck h]
    simp only [h, ne_eq, not_false_eq_true, if_true]
    exact ih h

/-! ## Claim theorems for the virtual machine -/

/-- C9: for three-digit numbers `a` and `b`, `add(a,b) = (a+b) mod 1000` and
`subtract(a,b) = ((a-b+1000) mod 1000, a < b)` (the subtraction law stated
over the integers), including the concrete instances `add(999,1) = 0`,
`subtract(5,10) = (995, true)` and `subtract(10,5) = (5, false)`. -/
theorem c9_n3_arithmetic (a b : Nat) (ha : a ≤ 999) (hb : b ≤ 999) :
    n3_add a b = (a + b) % 1000 ∧
    ((n3_sub a b).1 : Int) = ((a : Int) - (b : Int) + 1000) % 1000 ∧
    (n3_sub a b).2 = decide (a < b) ∧
    n3_add 999 1 = 0 ∧ n3_sub 5 10 = (995, true) ∧ n3_sub 10 5 = (5, false) := by
  refine ⟨rfl, ?_, rfl, by decide, by decide, by decide⟩
  simp only [n3_sub]
  omega

/-- Witness for C9 at `a = 5`, `b = 10`. -/
theorem c9_n3_arithmetic_witness :
    n3_add 5 10 = (5 + 10) % 1000 ∧
    ((n3_sub 5 10).1 : Int) = ((5 : Int) - (10 : Int) + 1000) % 1000 :=
  ⟨(c9_n3_arithmetic 5 10 (by decide) (by decide)).1,
   (c9_n3_arithmetic 5 10 (by decide) (by decide)).2.1⟩

/-- C5: if the computer is not `Running`, `step()` returns the current state
and changes nothing at all (memory, counter, register, negative flag, state),
so repeated stepping keeps returning the same terminal state. -/
theorem c5_step_no_op (c : Computer) (h : c.state ≠ State.Running) :
    c.step = c ∧ ∀ n, Computer.step^[n] c = c := by
  have h1 := step_stuck h
  exact ⟨h1, fun n => Function.iterate_fixed h1 n⟩

/-- Witness for C5: a halted computer. -/
theorem c5_step_no_op_witness :
    (Computer.mk State.Halted (List.replicate 100 0) 3 7 false).step
      = Computer.mk State.Halted (List.replicate 100 0) 3 7 false :=
  (c5_step_no_op _ (by decide)).1

/-- C4: executing one instruction in state `Running` with `counter ≤ 99`,
decoding `w = memory[counter]`, `opcode = w / 100`, `address = w % 100`:
a taken branch (opcode 6; opcode 7 with zero register; opcode 8 with clear
negative flag) sets the counter to exactly the address with no extra
increment; a not-taken branch and every other non-terminal instruction
(opcodes 1, 2, 3, 5, and 9 with address 1 or 2) leaves the counter at its
old value plus one; any opcode outside the defined set (such as opcode 4)
makes the state `InvalidInstruction`. -/
theorem c4_step_counter_semantics (c : Computer) (hrun : c.state = State.Running)
    (hc : c.counter ≤ 99) :
    (c.memory.getD c.counter 0 / 100 = 6 →
      c.step.counter = c.memory.getD c.counter 0 % 100 ∧ c.step.state = State.Running) ∧
    (c.memory.getD c.counter 0 / 100 = 7 → c.register = 0 →
      c.step.counter = c.memory.getD c.counter 0 % 100) ∧
    (c.memory.getD c.counter 0 / 100 = 8 → c.negative_flag = false →
      c.step.counter = c.memory.getD c.counter 0 % 100) ∧
    (c.memory.getD c.counter 0 / 100 = 7 → c.register ≠ 0 →
      c.step.counter = c.counter + 1) ∧
    (c.memory.getD c.counter 0 / 100 = 8 → c.negative_flag = true →
      c.step.counter = c.counter + 1) ∧
    (c.memory.getD c.counter 0 / 100 = 1 ∨ c.memory.getD c.counter 0 / 100 = 2 ∨
     c.memory.getD c.counter 0 / 100 = 3 ∨ c.memory.getD c.counter 0 / 100 = 5 →
      c.step.counter = c.counter + 1 ∧ c.step.state = State.Running) ∧
    (c.memory.getD c.counter 0 / 100 = 9 →
      c.memory.getD c.counter 0 % 100 = 1 ∨ c.memory.getD c.counter 0 % 100 = 2 →
      c.step.counter = c.counter + 1) ∧
    (c.memory.getD c.counter 0 / 100 ≠ 0 ∧ c.memory.getD c.counter 0 / 100 ≠ 1 ∧
     c.memory.getD c.counter 0 / 100 ≠ 2 ∧ c.memory.getD c.counter 0 / 100 ≠ 3 ∧
     c.memory.getD c.counter 0 / 100 ≠ 5 ∧ c.memory.getD c.counter 0 / 100 ≠ 6 ∧
     c.memory.getD c.counter 0 / 100 ≠ 7 ∧ c.memory.getD c.counter 0 / 100 ≠ 8 ∧
     c.memory.getD c.counter 0 / 100 ≠ 9 →
      c.step.state = State.InvalidInstruction) := by
  have h100 : ¬(c.counter = 100) := by omega
  simp only [Computer.step, hrun, ne_eq, not_true_eq_false, if_false, h100, if_true]
  refine ⟨?_, ?_, ?_, ?_, ?_, ?_, ?_, ?_⟩
  · intro hop; rw [hop]; exact ⟨rfl, rfl⟩
  · intro hop hreg; rw [hop]; simp [hreg]
  · intro hop hneg; rw [hop]; simp [hneg]
  · intro hop hreg; rw [hop]; simp [hreg]
  · intro hop hneg; rw [hop]; simp [hneg]
  · rintro (hop | hop | hop | hop) <;> rw [hop] <;> exact ⟨rfl, rfl⟩
  · rintro hop (hd | hd) <;> rw [hop, hd]
  · rintro ⟨h0, h1, h2, h3, h5, h6, h7, h8, h9⟩
    split <;> first | rfl | omega

/-- Witness for C4: a computer about to execute `BR 55` (word 655). -/
theorem c4_step_counter_semantics_witness :
    (Computer.new (655 :: List.replicate 99 0)).step.counter = 655 % 100 :=
  ((c4_step_counter_semantics (Computer.new (655 :: List.replicate 99 0))
    rfl (by decide)).1 (by decide)).1

/-- C1 (refuted — the loop condition of `run` is inverted): the source reads
`while self.step() != State::Running {}`, so on a program that halts at once
(all-zero memory: `HLT` at address 0) the loop never exits — `runFuel`
returns `none` for every fuel — instead of returning `Halted` after one
step; and on a program that never leaves `Running` (memory full of
`ADD 01` words, 101) `run` exits after a single step while the state is
still `Running`, instead of stepping on. -/
theorem c1_run_loop_inverted :
    (∀ fuel, Computer.runFuel fuel (Computer.new (List.replicate 100 0)) = none) ∧
    Computer.runFuel 5 (Computer.new (List.replicate 100 101))
        = some ((Computer.new (List.replicate 100 101)).step) ∧
    ((Computer.new (List.replicate 100 101)).step).state = State.Running := by
  refine ⟨?_, by decide, by decide⟩
  intro fuel
  cases fuel with
  | zero => rfl
  | succ n =>
    have hne : (Computer.new (List.replicate 100 0)).step.state ≠ State.Running := by decide
    rw [Computer.runFuel]
    simp only [hne, ne_eq, not_false_eq_true, if_true]
    exact runFuel_none_of_stuck hne n

/-- C10: `counter ≤ 100` holds after `new()` and is preserved by `step`,
`run`, `input`, `output`, `reset` and (successful) `set_counter`; and under
the invariant, when `step()` actually executes (state `Running`, counter not
100) both the fetch index `counter` and every operand index `word % 100` are
below 100, the length of the memory array. -/
theorem c10_counter_invariant (m : List Nat) (c : Computer) (hc : c.counter ≤ 100) :
    (Computer.new m).counter ≤ 100 ∧
    c.step.counter ≤ 100 ∧
    (∀ fuel c', Computer.runFuel fuel c = some c' → c'.counter ≤ 100) ∧
    (∀ i c', c.input i = Except.ok c' → c'.counter ≤ 100) ∧
    (∀ o c', c.output = Except.ok (o, c') → c'.counter ≤ 100) ∧
    c.reset.counter ≤ 100 ∧
    (∀ v c', Computer.set_counter c v = Except.ok c' → c'.counter ≤ 100) ∧
    (c.state = State.Running → c.counter ≠ 100 →
      c.counter < 100 ∧ (c.memory.getD c.counter 0) % 100 < 100) := by
  refine ⟨Nat.zero_le _, step_counter_le hc, runFuel_counter_le hc, ?_, ?_, Nat.zero_le _,
    ?_, ?_⟩
  · intro i c' h
    simp only [Computer.input] at h
    split at h
    · cases h; exact hc
    · cases h
  · intro o c' h
    simp only [Computer.output] at h
    split at h
    · cases h; exact hc
    · cases h
  · intro v c' h
    simp only [Computer.set_counter] at h
    split at h
    · cases h
    · cases h
      show v ≤ 100
      omega
  · intro _ h100
    exact ⟨by omega, Nat.mod_lt _ (by omega)⟩

/-- Witness for C10 at the freshly created all-zero computer. -/
theorem c10_counter_invariant_witness :
    (Computer.new (List.replicate 100 0)).step.counter ≤ 100 :=
  (c10_counter_invariant [] (Computer.new (List.replicate 100 0)) (by decide)).2.1

/-! ## Claim theorems for the binary codec -/

set_option maxRecDepth 4000 in
/-- C2 (the code fails its own check): the word receiving its final bits from
the last byte of the buffer is never range-checked — the `> 999` check only
runs at the *next* byte's iteration.  Loading the one-byte buffer `[255]`
returns `Ok` with word 0 equal to 1020 > 999, although the claim (and the
source's own "numbers have already been checked" safety comment) requires
`InvalidNumber`.  The `BufferTooLarge` half of the claim does hold, as the
126-byte instance shows. -/
theorem c2_load_final_word_unchecked :
    load_from_buffer [255] = Except.ok (1020 :: List.replicate 99 0) ∧
    1020 > 999 ∧
    load_from_buffer (List.replicate 126 0)
      = Except.error (LoadError.BufferTooLarge 126) :=
  ⟨by rfl, by decide, by rfl⟩

set_option maxRecDepth 4000 in
/-- Disjoint-bit `|||` is addition: multiples of 4 against values below 4. -/
theorem lor_mul_pow4 : ∀ a < 256, ∀ b < 4, a * 4 ||| b = a * 4 + b := by decide

set_option maxRecDepth 4000 in
/-- Disjoint-bit `|||` is addition: multiples of 16 against values below 16. -/
theorem lor_mul_pow16 : ∀ a < 64, ∀ b < 16, a * 16 ||| b = a * 16 + b := by decide

set_option maxRecDepth 4000 in
/-- Disjoint-bit `|||` is addition: multiples of 64 against values below 64. -/
theorem lor_mul_pow64 : ∀ a < 16, ∀ b < 64, a * 64 ||| b = a * 64 + b := by decide

set_option maxRecDepth 4000 in
/-- Disjoint-bit `|||` is addition: multiples of 256 against values below 256. -/
theorem lor_mul_pow256 : ∀ a < 4, ∀ b < 256, a * 256 ||| b = a * 256 + b := by decide

/-- `getD` at the length of the left part of an append. -/
theorem getD_append_len0 (l : List Nat) (x : Nat) (r : List Nat) :
    (l ++ x :: r).getD l.length 0 = x := by
  induction l with
  | nil => rfl
  | cons a l ih => simpa using ih

/-- `set` at the length of the left part of an append. -/
theorem set_append_len0 (l : List Nat) (x v : Nat) (r : List Nat) :
    (l ++ x :: r).set l.length v = l ++ v :: r := by
  induction l with
  | nil => rfl
  | cons a l ih => simp [ih]

/-- One `saveStep` at a mid-block offset (`offset + 2 ≠ 10`): the word's high
bits are ORed into the shared byte `x` and its low bits start the next byte. -/
theorem saveStep_mid (done r : List Nat) (x n off : Nat) (h : ¬(off + 2 = 10)) :
    saveStep ⟨done ++ x :: 0 :: r, done.length, off⟩ n
      = ⟨(done ++ [x ||| ((n >>> off) % 256)]) ++ ((n <<< (8 - off)) % 256) :: r,
         (done ++ [x ||| ((n >>> off) % 256)]).length, off + 2⟩ := by
  have h1 : (done ++ x :: 0 :: r).set done.length (x ||| ((n >>> off) % 256))
      = (done ++ [x ||| ((n >>> off) % 256)]) ++ 0 :: r := by
    rw [set_append_len0]; simp
  simp only [saveStep, getD_append_len0, h1, List.length_append, List.length_cons,
    List.length_nil, Nat.zero_add]
  have h2 : done.length + 1 = (done ++ [x ||| ((n >>> off) % 256)]).length := by simp
  rw [h2, getD_append_len0, set_append_len0, Nat.zero_or, if_neg h]

/-- One `saveStep` at offset 8 (the wrap): the next word starts on a fresh
byte, so the byte index skips past the completed low byte and the offset
resets to 2. -/
theorem saveStep_wrap (done r : List Nat) (x n : Nat) :
    saveStep ⟨done ++ x :: 0 :: r, done.length, 8⟩ n
      = ⟨(done ++ [x ||| ((n >>> 8) % 256), (n <<< 0) % 256]) ++ r,
         (done ++ [x ||| ((n >>> 8) % 256), (n <<< 0) % 256]).length, 2⟩ := by
  have h1 : (done ++ x :: 0 :: r).set done.length (x ||| ((n >>> 8) % 256))
      = (done ++ [x ||| ((n >>> 8) % 256)]) ++ 0 :: r := by
    rw [set_append_len0]; simp
  simp only [saveStep, getD_append_len0, h1, List.length_append, List.length_cons,
    List.length_nil, Nat.zero_add]
  have h2 : done.length + 1 = (done ++ [x ||| ((n >>> 8) % 256)]).length := by simp
  rw [h2, getD_append_len0, set_append_len0, Nat.zero_or]
  simp [List.append_assoc]

/-- Four `saveStep`s starting at a block boundary (offset 2, five fresh zero
bytes) produce exactly the five `encBlock` bytes and land on the next block
boundary. -/
theorem saveGo_block (done zrest ws : List Nat) (w0 w1 w2 w3 : Nat) :
    saveGo ⟨done ++ 0 :: 0 :: 0 :: 0 :: 0 :: zrest, done.length, 2⟩
        (w0 :: w1 :: w2 :: w3 :: ws)
      = saveGo ⟨(done ++ encBlock w0 w1 w2 w3) ++ zrest,
                (done ++ encBlock w0 w1 w2 w3).length, 2⟩ ws := by
  rw [saveGo, saveStep_mid done (0 :: 0 :: 0 :: zrest) 0 w0 2 (by decide)]
  rw [Nat.zero_or]
  rw [saveGo, saveStep_mid (done ++ [(w0 >>> 2) % 256]) (0 :: 0 :: zrest) _ w1 4 (by decide)]
  rw [saveGo, saveStep_mid (done ++ [(w0 >>> 2) % 256] ++ [((w0 <<< 6) % 256) ||| ((w1 >>> 4) % 256)])
        (0 :: zrest) _ w2 6 (by decide)]
  rw [saveGo, saveStep_wrap (done ++ [(w0 >>> 2) % 256] ++ [((w0 <<< 6) % 256) ||| ((w1 >>> 4) % 256)]
        ++ [((w1 <<< 4) % 256) ||| ((w2 >>> 6) % 256)]) zrest _ w3]
  simp [encBlock, List.append_assoc]

/-- The whole `saveGo` loop over a 4-divisible word list equals `encBytes`. -/
theorem saveGo_blocks : ∀ (ws done : List Nat), ws.length % 4 = 0 →
    (saveGo ⟨done ++ List.replicate ((ws.length / 4) * 5) 0, done.length, 2⟩ ws).buffer
      = done ++ encBytes ws
  | [], done, _ => by simp [saveGo, encBytes]
  | [_], _, h => by simp at h
  | [_, _], _, h => by simp at h
  | [_, _, _], _, h => by simp at h
  | w0 :: w1 :: w2 :: w3 :: ws, done, h => by
    have hlen : (w0 :: w1 :: w2 :: w3 :: ws).length / 4 * 5 = ws.length / 4 * 5 + 5 := by
      simp only [List.length_cons]
      omega
    rw [hlen]
    have hrep : List.replicate (ws.length / 4 * 5 + 5) 0
        = 0 :: 0 :: 0 :: 0 :: 0 :: List.replicate (ws.length / 4 * 5) (0 : Nat) := rfl
    rw [hrep, saveGo_block]
    have h4 : ws.length % 4 = 0 := by
      simp only [List.length_cons] at h
      omega
    rw [saveGo_blocks ws (done ++ encBlock w0 w1 w2 w3) h4]
    simp [encBytes, List.append_assoc]

/-- `save_to_buffer` is `encBytes` followed by the trailing-zero trim. -/
theorem save_to_buffer_eq (m : List Nat) (hlen : m.length = 100) :
    save_to_buffer m = trimZeros (encBytes m) := by
  have h125 : List.replicate 125 (0 : Nat) = List.replicate (m.length / 4 * 5) 0 := by
    rw [hlen]
  have hs : (⟨List.replicate 125 0, 0, 2⟩ : SaveSt)
      = ⟨([] : List Nat) ++ List.replicate (m.length / 4 * 5) 0,
         ([] : List Nat).length, 2⟩ := by
    rw [← h125]; rfl
  rw [save_to_buffer, hs, saveGo_blocks m [] (by omega), List.nil_append]

/-- Unfolding one successful `loadGo` iteration. -/
theorem loadGo_cons_ok {idx : Nat} {st : LoadSt} {b : Nat} {rest : List Nat}
    {st' : LoadSt} (h : loadStep idx st b = Except.ok st') :
    loadGo idx st (b :: rest) = loadGo (idx + 1) st' rest := by
  rw [loadGo, h]

/-- A byte (< 256) shifted right by 8 contributes nothing. -/
theorem shiftRight8_mod256 (b : Nat) : (b % 256) >>> 8 = 0 := by
  simp only [Nat.shiftRight_eq_div_pow]
  omega

/-- The first saved byte of a block carries bits 9..2 of the word. -/
theorem encA_up (w0 : Nat) (h : w0 < 1024) :
    (((w0 >>> 2) % 256) <<< 2) % 1024 = w0 / 4 * 4 := by
  simp only [Nat.shiftLeft_eq, Nat.shiftRight_eq_div_pow]
  omega

/-- Arithmetic value of the second byte of a block. -/
theorem encB_val (w0 w1 : Nat) (h1 : w1 < 1024) :
    ((w0 <<< 6) % 256) ||| ((w1 >>> 4) % 256) = w0 % 4 * 64 + w1 / 16 := by
  have e1 : (w0 <<< 6) % 256 = w0 % 4 * 64 := by
    simp only [Nat.shiftLeft_eq]
    omega
  have e2 : (w1 >>> 4) % 256 = w1 / 16 := by
    simp only [Nat.shiftRight_eq_div_pow]
    omega
  rw [e1, e2]
  have := lor_mul_pow64 (w0 % 4) (by omega) (w1 / 16) (by omega)
  omega

/-- Low bits of word 0 recovered from the second byte. -/
theorem encB_low (w0 w1 : Nat) (h1 : w1 < 1024) :
    (w0 % 4 * 64 + w1 / 16) >>> 6 = w0 % 4 := by
  simp only [Nat.shiftRight_eq_div_pow]
  omega

/-- Reassembling word 0 from its two saved parts. -/
theorem cell_w0 (w0 : Nat) (h : w0 < 1024) : w0 / 4 * 4 ||| w0 % 4 = w0 := by
  have := lor_mul_pow4 (w0 / 4) (by omega) (w0 % 4) (by omega)
  omega

/-- High bits of word 1 recovered from the second byte. -/
theorem encB_up (w0 w1 : Nat) (h1 : w1 < 1024) :
    ((w0 % 4 * 64 + w1 / 16) <<< 4) % 1024 = w1 / 16 * 16 := by
  simp only [Nat.shiftLeft_eq]
  omega

/-- Arithmetic value of the third byte of a block. -/
theorem encC_val (w1 w2 : Nat) (h2 : w2 < 1024) :
    ((w1 <<< 4) % 256) ||| ((w2 >>> 6) % 256) = w1 % 16 * 16 + w2 / 64 := by
  have e1 : (w1 <<< 4) % 256 = w1 % 16 * 16 := by
    simp only [Nat.shiftLeft_eq]
    omega
  have e2 : (w2 >>> 6) % 256 = w2 / 64 := by
    simp only [Nat.shiftRight_eq_div_pow]
    omega
  rw [e1, e2]
  have := lor_mul_pow16 (w1 % 16) (by omega) (w2 / 64) (by omega)
  omega

/-- Low bits of word 1 recovered from the third byte. -/
theorem encC_low (w1 w2 : Nat) (h2 : w2 < 1024) :
    (w1 % 16 * 16 + w2 / 64) >>> 4 = w1 % 16 := by
  simp only [Nat.shiftRight_eq_div_pow]
  omega

/-- Reassembling word 1 from its two saved parts. -/
theorem cell_w1 (w1 : Nat) (h : w1 < 1024) : w1 / 16 * 16 ||| w1 % 16 = w1 := by
  have := lor_mul_pow16 (w1 / 16) (by omega) (w1 % 16) (by omega)
  omega

/-- High bits of word 2 recovered from the third byte. -/
theorem encC_up (w1 w2 : Nat) (h2 : w2 < 1024) :
    ((w1 % 16 * 16 + w2 / 64) <<< 6) % 1024 = w2 / 64 * 64 := by
  simp only [Nat.shiftLeft_eq]
  omega

/-- Arithmetic value of the fourth byte of a block. -/
theorem encD_val (w2 w3 : Nat) (h3 : w3 < 1024) :
    ((w2 <<< 2) % 256) ||| ((w3 >>> 8) % 256) = w2 % 64 * 4 + w3 / 256 := by
  have e1 : (w2 <<< 2) % 256 = w2 % 64 * 4 := by
    simp only [Nat.shiftLeft_eq]
    omega
  have e2 : (w3 >>> 8) % 256 = w3 / 256 := by
    simp only [Nat.shiftRight_eq_div_pow]
    omega
  rw [e1, e2]
  have := lor_mul_pow4 (w2 % 64) (by omega) (w3 / 256) (by omega)
  omega

/-- Low bits of word 2 recovered from the fourth byte. -/
theorem encD_low (w2 w3 : Nat) (h3 : w3 < 1024) :
    (w2 % 64 * 4 + w3 / 256) >>> 2 = w2 % 64 := by
  simp only [Nat.shiftRight_eq_div_pow]
  omega

/-- Reassembling word 2 from its two saved parts. -/
theorem cell_w2 (w2 : Nat) (h : w2 < 1024) : w2 / 64 * 64 ||| w2 % 64 = w2 := by
  have := lor_mul_pow64 (w2 / 64) (by omega) (w2 % 64) (by omega)
  omega

/-- High bits of word 3 recovered from the fourth byte. -/
theorem encD_up (w2 w3 : Nat) (h3 : w3 < 1024) :
    ((w2 % 64 * 4 + w3 / 256) <<< 8) % 1024 = w3 / 256 * 256 := by
  simp only [Nat.shiftLeft_eq]
  omega

/-- The fifth byte of a block shifted right by 10 contributes nothing. -/
theorem encE_shift (w3 : Nat) : ((w3 <<< 0) % 256) >>> 10 = 0 := by
  simp only [Nat.shiftLeft_eq, Nat.shiftRight_eq_div_pow]
  omega

/-- Low byte of word 3 recovered from the fifth byte. -/
theorem encE_up (w3 : Nat) : (((w3 <<< 0) % 256) <<< 0) % 1024 = w3 % 256 := by
  simp only [Nat.shiftLeft_eq]
  omega

/-- Reassembling word 3 from its two saved parts. -/
theorem cell_w3 (w3 : Nat) (h : w3 < 1024) : w3 / 256 * 256 ||| w3 % 256 = w3 := by
  have := lor_mul_pow256 (w3 / 256) (by omega) (w3 % 256) (by omega)
  omega

/-- `loadStep` on the very first byte (enumeration index 0): no range check,
no address increment — both halves of the byte land in word 0. -/
theorem loadStep_first (m0 b : Nat) (rest : List Nat) :
    loadStep 0 ⟨m0 :: rest, 0, 2⟩ b
      = Except.ok ⟨((m0 ||| (b >>> 8)) ||| ((b <<< 2) % 1024)) :: rest, 0, 4⟩ := by
  simp [loadStep]

/-- `loadStep` at offset 2 with a non-zero index. -/
theorem loadStep_off2 (idx : Nat) (hidx : ¬(idx = 0)) (base rest : List Nat)
    (x y b : Nat) (hchk : ¬(x ||| (b >>> 8) > 999)) :
    loadStep idx ⟨base ++ x :: y :: rest, base.length, 2⟩ b
      = Except.ok ⟨(base ++ [x ||| (b >>> 8)]) ++ (y ||| ((b <<< 2) % 1024)) :: rest,
                   base.length + 1, 4⟩ := by
  simp only [loadStep, getD_append_len0, set_append_len0]
  rw [show (10 : Nat) - 2 = 8 from by norm_num]
  rw [if_neg (by
    rintro ⟨-, hgt⟩
    exact hchk hgt)]
  rw [if_neg (by decide : ¬(2 + 2 = 10))]
  simp only [if_neg hidx]
  rw [show base ++ (x ||| b >>> 8) :: y :: rest
        = (base ++ [x ||| b >>> 8]) ++ y :: rest from by simp]
  rw [show base.length + 1 = (base ++ [x ||| b >>> 8]).length from by simp]
  rw [getD_append_len0, set_append_len0]

/-- `loadStep` at offset 4 with a non-zero index. -/
theorem loadStep_off4 (idx : Nat) (hidx : ¬(idx = 0)) (base rest : List Nat)
    (x y b : Nat) (hchk : ¬(x ||| (b >>> 6) > 999)) :
    loadStep idx ⟨base ++ x :: y :: rest, base.length, 4⟩ b
      = Except.ok ⟨(base ++ [x ||| (b >>> 6)]) ++ (y ||| ((b <<< 4) % 1024)) :: rest,
                   base.length + 1, 6⟩ := by
  simp only [loadStep, getD_append_len0, set_append_len0]
  rw [show (10 : Nat) - 4 = 6 from by norm_num]
  rw [if_neg (by
    rintro ⟨-, hgt⟩
    exact hchk hgt)]
  rw [if_neg (by decide : ¬(4 + 2 = 10))]
  simp only [if_neg hidx]
  rw [show base ++ (x ||| b >>> 6) :: y :: rest
        = (base ++ [x ||| b >>> 6]) ++ y :: rest from by simp]
  rw [show base.length + 1 = (base ++ [x ||| b >>> 6]).length from by simp]
  rw [getD_append_len0, set_append_len0]

/-- `loadStep` at offset 6 with a non-zero index. -/
theorem loadStep_off6 (idx : Nat) (hidx : ¬(idx = 0)) (base rest : List Nat)
    (x y b : Nat) (hchk : ¬(x ||| (b >>> 4) > 999)) :
    loadStep idx ⟨base ++ x :: y :: rest, base.length, 6⟩ b
      = Except.ok ⟨(base ++ [x ||| (b >>> 4)]) ++ (y ||| ((b <<< 6) % 1024)) :: rest,
                   base.length + 1, 8⟩ := by
  simp only [loadStep, getD_append_len0, set_append_len0]
  rw [show (10 : Nat) - 6 = 4 from by norm_num]
  rw [if_neg (by
    rintro ⟨-, hgt⟩
    exact hchk hgt)]
  rw [if_neg (by decide : ¬(6 + 2 = 10))]
  simp only [if_neg hidx]
  rw [show base ++ (x ||| b >>> 4) :: y :: rest
        = (base ++ [x ||| b >>> 4]) ++ y :: rest from by simp]
  rw [show base.length + 1 = (base ++ [x ||| b >>> 4]).length from by simp]
  rw [getD_append_len0, set_append_len0]

/-- `loadStep` at offset 8 with a non-zero index: the offset wraps to 0 and
the address steps back to the still-incomplete word. -/
theorem loadStep_off8 (idx : Nat) (hidx : ¬(idx = 0)) (base rest : List Nat)
    (x y b : Nat) (hchk : ¬(x ||| (b >>> 2) > 999)) :
    loadStep idx ⟨base ++ x :: y :: rest, base.length, 8⟩ b
      = Except.ok ⟨(base ++ [x ||| (b >>> 2)]) ++ (y ||| ((b <<< 8) % 1024)) :: rest,
                   base.length, 0⟩ := by
  simp only [loadStep, getD_append_len0, set_append_len0]
  rw [show (10 : Nat) - 8 = 2 from by norm_num]
  rw [if_neg (by
    rintro ⟨-, hgt⟩
    exact hchk hgt)]
  simp only [if_true]
  simp only [if_neg hidx]
  rw [show base ++ (x ||| b >>> 2) :: y :: rest
        = (base ++ [x ||| b >>> 2]) ++ y :: rest from by simp]
  rw [show base.length + 1 = (base ++ [x ||| b >>> 2]).length from by simp]
  rw [getD_append_len0, set_append_len0]
  simp

/-- `loadStep` at offset 0 with a non-zero index (the byte right after a
wrap): the whole byte is the low byte of the current word. -/
theorem loadStep_off0 (idx : Nat) (hidx : ¬(idx = 0)) (base rest : List Nat)
    (x y b : Nat) (hchk : ¬(x ||| (b >>> 10) > 999)) :
    loadStep idx ⟨base ++ x :: y :: rest, base.length, 0⟩ b
      = Except.ok ⟨(base ++ [x ||| (b >>> 10)]) ++ (y ||| ((b <<< 0) % 1024)) :: rest,
                   base.length + 1, 2⟩ := by
  simp only [loadStep, getD_append_len0, set_append_len0]
  rw [show (10 : Nat) - 0 = 10 from by norm_num]
  rw [if_neg (by
    rintro ⟨-, hgt⟩
    exact hchk hgt)]
  rw [if_neg (by decide : ¬(0 + 2 = 10))]
  simp only [if_neg hidx]
  rw [show base ++ (x ||| b >>> 10) :: y :: rest
        = (base ++ [x ||| b >>> 10]) ++ y :: rest from by simp]
  rw [show base.length + 1 = (base ++ [x ||| b >>> 10]).length from by simp]
  rw [getD_append_len0, set_append_len0]

/-- Bytes 2–5 of a block: starting right after the block's first byte, the
remaining four bytes complete words 0–3 and land on the next block
boundary. -/
theorem loadGo_tail (j : Nat) (base1 ztail brest : List Nat) (w0 w1 w2 w3 : Nat)
    (h0 : w0 ≤ 999) (h1 : w1 ≤ 999) (h2 : w2 ≤ 999) (h3 : w3 < 1024) :
    loadGo (j + 1) ⟨base1 ++ (w0 / 4 * 4) :: 0 :: 0 :: 0 :: ztail, base1.length, 4⟩
        ((((w0 <<< 6) % 256) ||| ((w1 >>> 4) % 256)) ::
         (((w1 <<< 4) % 256) ||| ((w2 >>> 6) % 256)) ::
         (((w2 <<< 2) % 256) ||| ((w3 >>> 8) % 256)) ::
         ((w3 <<< 0) % 256) :: brest)
      = loadGo (j + 5) ⟨base1 ++ w0 :: w1 :: w2 :: w3 :: ztail, base1.length + 3, 2⟩
          brest := by
  have hw0 : w0 < 1024 := by omega
  have hw1 : w1 < 1024 := by omega
  have hw2 : w2 < 1024 := by omega
  rw [encB_val w0 w1 hw1, encC_val w1 w2 hw2, encD_val w2 w3 h3]
  rw [loadGo_cons_ok (loadStep_off4 (j + 1) (by omega) base1 (0 :: 0 :: ztail)
        (w0 / 4 * 4) 0 (w0 % 4 * 64 + w1 / 16)
        (by rw [encB_low w0 w1 hw1, cell_w0 w0 hw0]; omega))]
  rw [encB_low w0 w1 hw1, cell_w0 w0 hw0, encB_up w0 w1 hw1, Nat.zero_or]
  rw [show base1.length + 1 = (base1 ++ [w0]).length from by simp]
  rw [loadGo_cons_ok (loadStep_off6 (j + 1 + 1) (by omega) (base1 ++ [w0])
        (0 :: ztail) (w1 / 16 * 16) 0 (w1 % 16 * 16 + w2 / 64)
        (by rw [encC_low w1 w2 hw2, cell_w1 w1 hw1]; omega))]
  rw [encC_low w1 w2 hw2, cell_w1 w1 hw1, encC_up w1 w2 hw2, Nat.zero_or]
  rw [show (base1 ++ [w0]).length + 1 = ((base1 ++ [w0]) ++ [w1]).length from by simp]
  rw [loadGo_cons_ok (loadStep_off8 (j + 1 + 1 + 1) (by omega) ((base1 ++ [w0]) ++ [w1])
        ztail (w2 / 64 * 64) 0 (w2 % 64 * 4 + w3 / 256)
        (by rw [encD_low w2 w3 h3, cell_w2 w2 hw2]; omega))]
  rw [encD_low w2 w3 h3, cell_w2 w2 hw2, encD_up w2 w3 h3, Nat.zero_or]
  rw [show (((base1 ++ [w0]) ++ [w1]) ++ [w2]) ++ (w3 / 256 * 256) :: ztail
        = ((base1 ++ [w0]) ++ [w1]) ++ w2 :: (w3 / 256 * 256) :: ztail from by simp]
  rw [loadGo_cons_ok (loadStep_off0 (j + 1 + 1 + 1 + 1) (by omega)
        ((base1 ++ [w0]) ++ [w1]) ztail w2 (w3 / 256 * 256) ((w3 <<< 0) % 256)
        (by rw [encE_shift w3, Nat.or_zero]; omega))]
  rw [encE_shift w3, Nat.or_zero, encE_up w3, cell_w3 w3 h3]
  rw [show j + 1 + 1 + 1 + 1 + 1 = j + 5 from by omega]
  rw [show ((base1 ++ [w0]) ++ [w1]).length + 1 = base1.length + 3 from by simp]
  rw [show (((base1 ++ [w0]) ++ [w1]) ++ [w2]) ++ w3 :: ztail
        = base1 ++ w0 :: w1 :: w2 :: w3 :: ztail from by simp]

/-- One whole block of five bytes at a block boundary with a non-zero byte
index: the previous word `p` is checked, and words 0–3 of the block are
reconstructed. -/
theorem loadGo_block (idx : Nat) (hidx : ¬(idx = 0)) (Mpre ztail brest : List Nat)
    (p w0 w1 w2 w3 : Nat) (hp : p ≤ 999)
    (h0 : w0 ≤ 999) (h1 : w1 ≤ 999) (h2 : w2 ≤ 999) (h3 : w3 < 1024) :
    loadGo idx ⟨Mpre ++ p :: 0 :: 0 :: 0 :: 0 :: ztail, Mpre.length, 2⟩
        (encBlock w0 w1 w2 w3 ++ brest)
      = loadGo (idx + 5) ⟨Mpre ++ p :: w0 :: w1 :: w2 :: w3 :: ztail,
          Mpre.length + 4, 2⟩ brest := by
  have hw0 : w0 < 1024 := by omega
  simp only [encBlock, List.cons_append, List.nil_append]
  rw [loadGo_cons_ok (loadStep_off2 idx hidx Mpre (0 :: 0 :: 0 :: ztail) p 0
        ((w0 >>> 2) % 256)
        (by rw [shiftRight8_mod256, Nat.or_zero]; omega))]
  rw [shiftRight8_mod256, Nat.or_zero, encA_up w0 hw0, Nat.zero_or]
  rw [show Mpre.length + 1 = (Mpre ++ [p]).length from by simp]
  rw [loadGo_tail idx (Mpre ++ [p]) ztail brest w0 w1 w2 w3 h0 h1 h2 h3]
  rw [show (Mpre ++ [p]) ++ w0 :: w1 :: w2 :: w3 :: ztail
        = Mpre ++ p :: w0 :: w1 :: w2 :: w3 :: ztail from by simp]
  rw [show (Mpre ++ [p]).length + 3 = Mpre.length + 4 from by simp]

/-- The first block of five bytes (byte index 0): no check runs on the first
byte, and words 0–3 are reconstructed from address 0. -/
theorem loadGo_first_block (ztail brest : List Nat) (w0 w1 w2 w3 : Nat)
    (h0 : w0 ≤ 999) (h1 : w1 ≤ 999) (h2 : w2 ≤ 999) (h3 : w3 < 1024) :
    loadGo 0 ⟨0 :: 0 :: 0 :: 0 :: ztail, 0, 2⟩ (encBlock w0 w1 w2 w3 ++ brest)
      = loadGo 5 ⟨w0 :: w1 :: w2 :: w3 :: ztail, 3, 2⟩ brest := by
  have hw0 : w0 < 1024 := by omega
  simp only [encBlock, List.cons_append, List.nil_append]
  rw [loadGo_cons_ok (loadStep_first 0 ((w0 >>> 2) % 256) (0 :: 0 :: 0 :: ztail))]
  rw [shiftRight8_mod256, Nat.or_zero, encA_up w0 hw0, Nat.zero_or]
  have htail := loadGo_tail 0 ([] : List Nat) ztail brest w0 w1 w2 w3 h0 h1 h2 h3
  simp only [List.nil_append, List.length_nil] at htail
  rw [htail]

/-- All the full blocks after the first: `encBytes` of a 4-divisible word
list reconstructs exactly those words after the pending word `p`. -/
theorem loadGo_blocks : ∀ (ws Mpre : List Nat) (p idx : Nat), ws.length % 4 = 0 →
    (∀ w ∈ ws, w ≤ 999) → p ≤ 999 → ¬(idx = 0) →
    loadGo idx ⟨Mpre ++ p :: List.replicate ws.length 0, Mpre.length, 2⟩ (encBytes ws)
      = Except.ok (Mpre ++ p :: ws)
  | [], Mpre, p, idx, _, _, _, _ => by simp [encBytes, loadGo]
  | [_], _, _, _, h, _, _, _ => by simp at h
  | [_, _], _, _, _, h, _, _, _ => by simp at h
  | [_, _, _], _, _, _, h, _, _, _ => by simp at h
  | w0 :: w1 :: w2 :: w3 :: ws, Mpre, p, idx, h4, hval, hp, hidx => by
    have h0 : w0 ≤ 999 := hval w0 (by simp)
    have h1 : w1 ≤ 999 := hval w1 (by simp)
    have h2 : w2 ≤ 999 := hval w2 (by simp)
    have h3 : w3 ≤ 999 := hval w3 (by simp)
    have hrep : List.replicate (w0 :: w1 :: w2 :: w3 :: ws).length (0 : Nat)
        = 0 :: 0 :: 0 :: 0 :: List.replicate ws.length (0 : Nat) := by
      simp [List.replicate_succ]
    rw [hrep]
    rw [show encBytes (w0 :: w1 :: w2 :: w3 :: ws)
          = encBlock w0 w1 w2 w3 ++ encBytes ws from rfl]
    rw [loadGo_block idx hidx Mpre (List.replicate ws.length 0) (encBytes ws)
          p w0 w1 w2 w3 hp h0 h1 h2 (by omega)]
    rw [show Mpre ++ p :: w0 :: w1 :: w2 :: w3 :: List.replicate ws.length 0
          = (Mpre ++ [p, w0, w1, w2]) ++ w3 :: List.replicate ws.length 0 from by simp]
    rw [show Mpre.length + 4 = (Mpre ++ [p, w0, w1, w2]).length from by simp]
    rw [loadGo_blocks ws (Mpre ++ [p, w0, w1, w2]) w3 (idx + 5)
          (by simp at h4 ⊢; omega) (fun w hw => hval w (by simp [hw])) h3 (by omega)]
    simp

/-- Loading the untrimmed `encBytes` of a valid 100-word memory recovers it. -/
theorem load_encBytes (M : List Nat) (hlen : M.length = 100)
    (hval : ∀ w ∈ M, w ≤ 999) :
    loadGo 0 ⟨List.replicate 100 0, 0, 2⟩ (encBytes M) = Except.ok M := by
  match M, hlen with
  | w0 :: w1 :: w2 :: w3 :: rest, hlen =>
    have h0 : w0 ≤ 999 := hval w0 (by simp)
    have h1 : w1 ≤ 999 := hval w1 (by simp)
    have h2 : w2 ≤ 999 := hval w2 (by simp)
    have h3 : w3 ≤ 999 := hval w3 (by simp)
    have hrest : rest.length = 96 := by simp at hlen; omega
    rw [show List.replicate 100 (0 : Nat)
          = 0 :: 0 :: 0 :: 0 :: List.replicate 96 0 from rfl]
    rw [show encBytes (w0 :: w1 :: w2 :: w3 :: rest)
          = encBlock w0 w1 w2 w3 ++ encBytes rest from rfl]
    rw [loadGo_first_block (List.replicate 96 0) (encBytes rest) w0 w1 w2 w3
          h0 h1 h2 (by omega)]
    rw [show w0 :: w1 :: w2 :: w3 :: List.replicate 96 (0 : Nat)
          = [w0, w1, w2] ++ w3 :: List.replicate 96 0 from by simp]
    rw [show (3 : Nat) = ([w0, w1, w2] : List Nat).length from rfl]
    rw [show (List.replicate 96 (0 : Nat)) = List.replicate rest.length 0 from by
          rw [hrest]]
    rw [loadGo_blocks rest [w0, w1, w2] w3 5 (by omega)
          (fun w hw => hval w (by simp [hw])) h3 (by omega)]
    simp

/-- Setting a cell to its own value changes nothing. -/
theorem list_set_getD_self : ∀ (l : List Nat) (n : Nat), l.set n (l.getD n 0) = l
  | [], _ => rfl
  | _ :: _, 0 => rfl
  | x :: l, n + 1 => by
    simp only [List.getD_cons_succ, List.set_cons_succ]
    rw [list_set_getD_self l n]

/-- A trailing zero byte never changes a successful load: it ORs nothing
into memory and its range check re-checks an already-checked word. -/
theorem loadGo_drop_zero : ∀ (b : List Nat) (idx : Nat) (st : LoadSt) (M : List Nat),
    loadGo idx st (b ++ [0]) = Except.ok M → loadGo idx st b = Except.ok M
  | [], idx, st, M => by
    intro h
    simp only [List.nil_append] at h
    rw [loadGo] at h
    have hstep : ∀ st', loadStep idx st 0 = Except.ok st' → st'.memory = st.memory := by
      intro st' hs
      simp only [loadStep, Nat.zero_shiftRight, Nat.zero_shiftLeft, Nat.zero_mod,
        Nat.or_zero, list_set_getD_self] at hs
      split at hs
      · cases hs
      · split at hs <;> cases hs <;> rfl
    revert h
    split
    · intro h; cases h
    · rename_i st' hs
      intro h
      rw [loadGo] at h
      cases h
      rw [loadGo, hstep st' hs]
  | x :: b, idx, st, M => by
    intro h
    simp only [List.cons_append] at h
    rw [loadGo] at h
    rw [loadGo]
    revert h
    split
    · intro h; exact h
    · intro h; exact loadGo_drop_zero b _ _ M h

/-- Any number of trailing zero bytes can be dropped from a successful load. -/
theorem loadGo_drop_zeros : ∀ (k : Nat) (b : List Nat) (idx : Nat) (st : LoadSt)
    (M : List Nat), loadGo idx st (b ++ List.replicate k 0) = Except.ok M →
    loadGo idx st b = Except.ok M
  | 0, b, idx, st, M => by simp
  | k + 1, b, idx, st, M => by
    intro h
    have h2 : loadGo idx st ((b ++ [0]) ++ List.replicate k 0) = Except.ok M := by
      rw [List.append_assoc]
      simpa [List.replicate_succ] using h
    exact loadGo_drop_zero b idx st M (loadGo_drop_zeros k (b ++ [0]) idx st M h2)

/-- `trimZeros` removes only trailing zeros: the original list is the trimmed
list plus some zero padding. -/
theorem trimZeros_spec (l : List Nat) : ∃ k, l = trimZeros l ++ List.replicate k 0 := by
  refine ⟨(l.reverse.takeWhile (· == 0)).length, ?_⟩
  have h1 : l.reverse.takeWhile (· == 0)
      = List.replicate (l.reverse.takeWhile (· == 0)).length 0 := by
    apply List.eq_replicate_of_mem
    intro b hb
    have := List.mem_takeWhile_imp hb
    simpa using this
  conv_lhs => rw [← l.reverse_reverse,
    ← List.takeWhile_append_dropWhile (p := (· == 0)) (l := l.reverse)]
  rw [List.reverse_append, trimZeros]
  rw [h1, List.reverse_replicate]
  simp

/-- Length of the untrimmed encoding: five bytes per four words. -/
theorem encBytes_length : ∀ ws : List Nat, ws.length % 4 = 0 →
    (encBytes ws).length = ws.length / 4 * 5
  | [], _ => rfl
  | [_], h => by simp at h
  | [_, _], h => by simp at h
  | [_, _, _], h => by simp at h
  | _ :: _ :: _ :: _ :: ws, h => by
    have h4 : ws.length % 4 = 0 := by simp at h ⊢; omega
    rw [show encBytes (_ :: _ :: _ :: _ :: ws) = encBlock _ _ _ _ ++ encBytes ws from rfl]
    rw [List.length_append, encBytes_length ws h4]
    simp [encBlock]
    omega

set_option maxRecDepth 8000 in
/-- C3: for every 100-word memory of three-digit numbers,
`load_from_buffer (save_to_buffer M)` returns `Ok(M)`; the all-zero memory
saves to the empty buffer, and the all-ones memory saves to the full
125-byte buffer. -/
theorem c3_codec_roundtrip :
    (∀ M : List Nat, M.length = 100 → (∀ w ∈ M, w ≤ 999) →
      load_from_buffer (save_to_buffer M) = Except.ok M) ∧
    save_to_buffer (List.replicate 100 0) = [] ∧
    (save_to_buffer (List.replicate 100 1)).length = 125 := by
  refine ⟨?_, by rfl, by rfl⟩
  intro M hlen hval
  rw [save_to_buffer_eq M hlen]
  obtain ⟨k, hk⟩ := trimZeros_spec (encBytes M)
  have henc : (encBytes M).length = 125 := by
    rw [encBytes_length M (by omega), hlen]
  have hload : loadGo 0 ⟨List.replicate 100 0, 0, 2⟩ (encBytes M) = Except.ok M :=
    load_encBytes M hlen hval
  have hdrop : loadGo 0 ⟨List.replicate 100 0, 0, 2⟩ (trimZeros (encBytes M))
      = Except.ok M :=
    loadGo_drop_zeros k (trimZeros (encBytes M)) 0 _ M (by rw [← hk]; exact hload)
  have hlen2 : (trimZeros (encBytes M)).length ≤ 125 := by
    have := congrArg List.length hk
    simp only [List.length_append, List.length_replicate] at this
    omega
  rw [load_from_buffer, if_neg (by simp [MAX_FILE_SIZE]; omega)]
  exact hdrop

set_option maxRecDepth 8000 in
/-- Witness for C3: the round trip at the constant memory of 100 sevens. -/
theorem c3_codec_roundtrip_witness :
    load_from_buffer (save_to_buffer (List.replicate 100 7))
      = Except.ok (List.replicate 100 7) :=
  c3_codec_roundtrip.1 (List.replicate 100 7) (by simp)
    (fun w hw => by rw [List.eq_of_mem_replicate hw]; omega)

/-! ## Claim theorems for the parser -/

/-- C7 counterexample: the first word `"1234"` parses as a decimal number
(`parseU16` gives 1234) and is not a mnemonic, yet
`parse(("1234", Some("HLT"), None))` succeeds with `"1234"` as the label
instead of failing with `UnexpectedNumber` — `NumberOrLabel::from` only
yields a `Number` for values at most 999, so larger numerals become labels. -/
theorem c7_numeric_label_counterexample :
    parseU16 "1234" = some 1234 ∧
    instruction_try_from "1234" = none ∧
    instruction_parse "1234" (some "HLT") none
      = Except.ok ⟨some "1234", Instruction.HLT⟩ := by
  refine ⟨by rfl, by rfl, by rfl⟩

/-- C7 (amended): if the first word is not a recognized mnemonic it is a
label candidate; if it moreover parses as a decimal number *in [0, 999]* the
parse fails with `UnexpectedNumber`; otherwise (in particular for numerals
above 999 such as `"1234"`) any successful parse records the first word as
the label. -/
theorem c7_label_rules (first : String) (second third : Option String)
    (hmn : instruction_try_from first = none) :
    ((∃ n, parseU16 first = some n ∧ n < 1000) →
      instruction_parse first second third = Except.error ParseError.UnexpectedNumber) ∧
    (numberOrLabel_from first = NumberOrLabel.Label first →
      ∀ r, instruction_parse first second third = Except.ok r →
        r.label = some first) := by
  constructor
  · rintro ⟨n, hn, hlt⟩
    have hnum : numberOrLabel_from first = NumberOrLabel.Number n := by
      simp [numberOrLabel_from, hn, hlt]
    simp [instruction_parse, hmn, hnum]
  · intro hlab r hr
    simp only [instruction_parse, hmn, hlab] at hr
    split at hr <;> (try split at hr) <;> (try split at hr) <;>
      (try split at hr) <;>
      first
      | (cases hr; rfl)
      | cases hr

/-- Witness for C7: the in-range numeral `"7"` is rejected, and the
out-of-range numeral rule keeps `"loop"`-style labels. -/
theorem c7_label_rules_witness :
    instruction_parse "7" (some "HLT") none
      = Except.error ParseError.UnexpectedNumber ∧
    (⟨some "loop", Instruction.BR (NumberOrLabel.Label "start")⟩ :
      InstrWithLabel).label = some "loop" :=
  ⟨(c7_label_rules "7" (some "HLT") none (by rfl)).1 ⟨7, by rfl, by decide⟩,
   (c7_label_rules "loop" (some "BRA") (some "start") (by rfl)).2 (by rfl)
     ⟨some "loop", Instruction.BR (NumberOrLabel.Label "start")⟩ (by rfl)⟩

/-! ## Claim theorems for the numeral assembler -/

/-- If every line is acceptable and every line starts with fewer than 100
number lines before it, assembly succeeds. -/
theorem assembleGo_ok_of_valid : ∀ (lines : List String) (a : NumberAssembler) (k : Nat),
    (∀ i, i < lines.length → a.index + ((lines.take i).countP numberLine) < 100) →
    (∀ l ∈ lines, okLine l = true) →
    ∃ m, assembleGo a k lines = Except.ok m
  | [], a, _, _, _ => ⟨a.memory, rfl⟩
  | l :: ls, a, k, hcap, hok => by
    have hidx : a.index < 100 := by
      have := hcap 0 (by simp)
      simpa using this
    have hokl := hok l (by simp)
    by_cases hb : beforeComment l = ""
    · have hnl : numberLine l = false := by simp [numberLine, hb]
      have hline : a.assemble_line l = Except.ok a := by
        rw [NumberAssembler.assemble_line, if_neg (by omega)]
        simp [hb]
      obtain ⟨m, hm⟩ := assembleGo_ok_of_valid ls a (k + 1)
        (fun i hi => by
          have := hcap (i + 1) (by simpa using hi)
          simpa [List.countP_cons, hnl] using this)
        (fun l' h => hok l' (by simp [h]))
      exact ⟨m, by rw [assembleGo, hline]; exact hm⟩
    · have hnl : numberLine l = true := by simp [numberLine, hb]
      obtain ⟨n, hn, hlt⟩ : ∃ n, parseU16 (trimStr (beforeComment l)) = some n ∧ n < 1000 := by
        rw [okLine, hnl] at hokl
        simp only [Bool.not_true, Bool.false_or] at hokl
        cases hp : parseU16 (trimStr (beforeComment l)) with
        | none => rw [hp] at hokl; cases hokl
        | some n =>
          rw [hp] at hokl
          exact ⟨n, rfl, by simpa using hokl⟩
      have hline : a.assemble_line l
          = Except.ok ⟨a.memory.set a.index n, a.index + 1⟩ := by
        rw [NumberAssembler.assemble_line, if_neg (by omega)]
        simp [hb, hn, hlt]
      obtain ⟨m, hm⟩ := assembleGo_ok_of_valid ls ⟨a.memory.set a.index n, a.index + 1⟩
        (k + 1)
        (fun i hi => by
          have := hcap (i + 1) (by simpa using hi)
          simp only [List.take_succ_cons, List.countP_cons, hnl, if_true] at this
          show a.index + 1 + (List.countP numberLine (ls.take i)) < 100
          omega)
        (fun l' h => hok l' (by simp [h]))
      exact ⟨m, by rw [assembleGo, hline]; exact hm⟩

/-- A successful assembly consumed at most the remaining capacity: with the
initial index 0 this bounds the number of number lines by 100. -/
theorem assembleGo_ok_count : ∀ (lines : List String) (a : NumberAssembler) (k : Nat)
    (m : List Nat), a.index ≤ 100 → assembleGo a k lines = Except.ok m →
    a.index + lines.countP numberLine ≤ 100
  | [], a, _, _, ha, _ => by simpa using ha
  | l :: ls, a, k, m, ha, h => by
    rw [assembleGo] at h
    cases hline : a.assemble_line l with
    | error e => rw [hline] at h; cases h
    | ok a' =>
      rw [hline] at h
      simp only [NumberAssembler.assemble_line] at hline
      split at hline
      · cases hline
      · rename_i hne
        split at hline
        · rename_i hb
          cases hline
          have hnl : numberLine l = false := by simp [numberLine, hb]
          have hrec := assembleGo_ok_count ls a (k + 1) m ha h
          simp [List.countP_cons, hnl]
          omega
        · rename_i hb
          have hnl : numberLine l = true := by simp [numberLine, hb]
          split at hline
          · cases hline
          · rename_i n hp
            split at hline
            · cases hline
              have hrec := assembleGo_ok_count ls ⟨a.memory.set a.index n, a.index + 1⟩
                (k + 1) m (by show a.index + 1 ≤ 100; omega) h
              have hrec' : a.index + 1 + ls.countP numberLine ≤ 100 := hrec
              simp [List.countP_cons, hnl]
              omega
            · cases hline

/-- Running the assembler over a prefix of acceptable lines just advances the
index by the number of its number lines. -/
theorem assembleGo_prefix : ∀ (pre rest : List String) (a : NumberAssembler) (k : Nat),
    (∀ l ∈ pre, okLine l = true) →
    a.index + pre.countP numberLine < 100 →
    ∃ a', assembleGo a k (pre ++ rest) = assembleGo a' (k + pre.length) rest ∧
      a'.index = a.index + pre.countP numberLine
  | [], _, a, k, _, _ => ⟨a, by simp, by simp⟩
  | l :: pre, rest, a, k, hok, hcap => by
    have hidx : a.index < 100 := by
      have := hcap
      simp only [List.countP_cons] at this
      omega
    have hokl := hok l (by simp)
    by_cases hb : beforeComment l = ""
    · have hnl : numberLine l = false := by simp [numberLine, hb]
      have hline : a.assemble_line l = Except.ok a := by
        rw [NumberAssembler.assemble_line, if_neg (by omega)]
        simp [hb]
      obtain ⟨a', ha1, ha2⟩ := assembleGo_prefix pre rest a (k + 1)
        (fun l' h => hok l' (by simp [h]))
        (by
          have := hcap
          simp only [List.countP_cons, hnl, if_false] at this ⊢
          omega)
      refine ⟨a', ?_, ?_⟩
      · rw [List.cons_append, assembleGo, hline]
        show assembleGo a (k + 1) (pre ++ rest) = assembleGo a' (k + (l :: pre).length) rest
        rw [ha1]
        have : k + 1 + pre.length = k + (l :: pre).length := by simp; omega
        rw [this]
      · rw [ha2]
        simp [List.countP_cons, hnl]
    · have hnl : numberLine l = true := by simp [numberLine, hb]
      obtain ⟨n, hn, hlt⟩ : ∃ n, parseU16 (trimStr (beforeComment l)) = some n ∧ n < 1000 := by
        rw [okLine, hnl] at hokl
        simp only [Bool.not_true, Bool.false_or] at hokl
        cases hp : parseU16 (trimStr (beforeComment l)) with
        | none => rw [hp] at hokl; cases hokl
        | some n =>
          rw [hp] at hokl
          exact ⟨n, rfl, by simpa using hokl⟩
      have hline : a.assemble_line l
          = Except.ok ⟨a.memory.set a.index n, a.index + 1⟩ := by
        rw [NumberAssembler.assemble_line, if_neg (by omega)]
        simp [hb, hn, hlt]
      obtain ⟨a', ha1, ha2⟩ := assembleGo_prefix pre rest
        ⟨a.memory.set a.index n, a.index + 1⟩ (k + 1)
        (fun l' h => hok l' (by simp [h]))
        (by
          have := hcap
          simp only [List.countP_cons, hnl, if_true] at this
          show a.index + 1 + pre.countP numberLine < 100
          omega)
      refine ⟨a', ?_, ?_⟩
      · rw [List.cons_append, assembleGo, hline]
        show assembleGo ⟨a.memory.set a.index n, a.index + 1⟩ (k + 1) (pre ++ rest)
          = assembleGo a' (k + (l :: pre).length) rest
        rw [ha1]
        have : k + 1 + pre.length = k + (l :: pre).length := by simp; omega
        rw [this]
      · rw [ha2]
        show a.index + 1 + pre.countP numberLine = a.index + (l :: pre).countP numberLine
        simp [List.countP_cons, hnl]
        omega

set_option maxRecDepth 8000 in
/-- C8 counterexample: a text of exactly 100 valid number lines followed by
one comment-only line satisfies the claim's success conditions (at most 100
number lines, every literal in range, blank/comment lines skipped), yet
`assemble_from_text` fails with `TooManyNumbers` at line 101, because the
capacity check runs before the blank/comment skip. -/
theorem c8_trailing_comment_counterexample :
    (List.replicate 100 "0" ++ ["#"]).countP numberLine = 100 ∧
    (∀ l ∈ List.replicate 100 "0" ++ ["#"], okLine l = true) ∧
    assemble_from_text (List.replicate 100 "0" ++ ["#"])
      = Except.error (101, FromNumbersError.TooManyNumbers) := by
  refine ⟨by decide, by decide, by rfl⟩

/-- C8 (amended): the assembler succeeds on every line list in which each
line is blank-before-comment or a single decimal literal in [0, 999] and
every line is preceded by fewer than 100 literal lines (so after the 100th
literal no further line — blank or not — may follow, the capacity check
preceding the skip); a successful run implies at most 100 literal lines
(hence more than 100 always fails); and the first malformed or out-of-range
literal is reported with its 1-based line number (`InvalidNumber` /
`TooLarge`). -/
theorem c8_number_assembler_rules :
    (∀ lines : List String,
      (∀ i, i < lines.length → ((lines.take i).countP numberLine) < 100) →
      (∀ l ∈ lines, okLine l = true) →
      ∃ m, assemble_from_text lines = Except.ok m) ∧
    (∀ (lines : List String) (m : List Nat),
      assemble_from_text lines = Except.ok m → lines.countP numberLine ≤ 100) ∧
    (∀ (pre post : List String) (l : String),
      (∀ l' ∈ pre, okLine l' = true) → pre.countP numberLine < 100 →
      numberLine l = true →
      (parseU16 (trimStr (beforeComment l)) = none →
        assemble_from_text (pre ++ l :: post)
          = Except.error (pre.length + 1, FromNumbersError.InvalidNumber)) ∧
      (∀ n, parseU16 (trimStr (beforeComment l)) = some n → ¬(n < 1000) →
        assemble_from_text (pre ++ l :: post)
          = Except.error (pre.length + 1, FromNumbersError.TooLarge))) := by
  refine ⟨?_, ?_, ?_⟩
  · intro lines hcap hok
    exact assembleGo_ok_of_valid lines NumberAssembler.new 0
      (fun i hi => by
        have := hcap i hi
        show 0 + (List.countP numberLine (lines.take i)) < 100
        omega) hok
  · intro lines m h
    have := assembleGo_ok_count lines NumberAssembler.new 0 m (by show (0 : Nat) ≤ 100; omega) h
    have h0 : (0 : Nat) + lines.countP numberLine ≤ 100 := this
    omega
  · intro pre post l hok hcap hnl
    have hbne : ¬(beforeComment l = "") := by
      intro hcontra
      rw [numberLine, hcontra] at hnl
      cases hnl
    obtain ⟨a', ha1, ha2⟩ := assembleGo_prefix pre (l :: post) NumberAssembler.new 0 hok
      (by show 0 + pre.countP numberLine < 100; omega)
    have hidx : a'.index < 100 := by
      rw [ha2]
      show 0 + pre.countP numberLine < 100
      omega
    constructor
    · intro hp
      rw [assemble_from_text, ha1, assembleGo]
      rw [NumberAssembler.assemble_line, if_neg (by omega)]
      simp only [hbne, if_false, ite_false]
      rw [hp]
      simp
    · intro n hp hge
      rw [assemble_from_text, ha1, assembleGo]
      rw [NumberAssembler.assemble_line, if_neg (by omega)]
      simp only [hbne, if_false, ite_false]
      rw [hp]
      simp [hge]

/-- Witness for C8: a single valid line assembles, and a single malformed
line is reported as `InvalidNumber` at line 1. -/
theorem c8_number_assembler_rules_witness :
    (∃ m, assemble_from_text ["5"] = Except.ok m) ∧
    assemble_from_text ["abc"] = Except.error (1, FromNumbersError.InvalidNumber) := by
  constructor
  · exact c8_number_assembler_rules.1 ["5"] (by decide) (by decide)
  · have h := (c8_number_assembler_rules.2.2 [] [] "abc" (by simp) (by decide)
      (by decide)).1 (by rfl)
    simpa using h

/-! ## Claim theorems for the test harness -/

/-- Case analysis of `Test.step`: at the budget it fails with
`RunOutOfCycles`; under the budget every error is a different error reported
at the current cycle count, and every success keeps `max_cycles` and the
name. -/
theorem test_step_cases (c : Computer) (t : Test) (cycles : Nat) :
    (cycles = t.max_cycles →
      Test.step c t cycles = Except.error ⟨t.name, cycles, TestError.RunOutOfCycles⟩) ∧
    (¬(cycles = t.max_cycles) →
      (∀ e, Test.step c t cycles = Except.error e →
        ¬(e.err = TestError.RunOutOfCycles) ∧ e.cycles = cycles) ∧
      (∀ d c' t', Test.step c t cycles = Except.ok (d, c', t') →
        t'.max_cycles = t.max_cycles ∧ t'.name = t.name)) := by
  constructor
  · intro h
    rw [Test.step, if_pos h]
  · intro hne
    constructor
    · intro e he
      simp only [Test.step, if_neg hne] at he
      split at he <;> (try split at he) <;> (try split at he) <;>
        cases he <;> exact ⟨by simp, rfl⟩
    · intro d c' t' h
      simp only [Test.step, if_neg hne] at h
      split at h <;> (try split at h) <;> (try split at h) <;>
        cases h <;> exact ⟨rfl, rfl⟩

/-- Evaluating the run loop when the step fails. -/
theorem runGo_step_error {c : Computer} {t : Test} {cycles : Nat}
    {h : cycles ≤ t.max_cycles} {e : TestErr}
    (hs : Test.step c t cycles = Except.error e) :
    Test.runGo c t cycles h = Except.error e := by
  rw [Test.runGo]
  split
  · rename_i e' hstep
    rw [hs] at hstep
    cases hstep
    rfl
  · rename_i c' t' hstep
    rw [hs] at hstep
    cases hstep
  · rename_i c' t' hstep
    rw [hs] at hstep
    cases hstep

/-- Evaluating the run loop when the step reports completion. -/
theorem runGo_step_done {c : Computer} {t : Test} {cycles : Nat}
    {h : cycles ≤ t.max_cycles} {c' : Computer} {t' : Test}
    (hs : Test.step c t cycles = Except.ok (true, c', t')) :
    Test.runGo c t cycles h = Except.ok (c', t', cycles + 1) := by
  rw [Test.runGo]
  split
  · rename_i e' hstep
    rw [hs] at hstep
    cases hstep
  · rename_i c'' t'' hstep
    rw [hs] at hstep
    cases hstep
    rfl
  · rename_i c'' t'' hstep
    rw [hs] at hstep
    cases hstep

/-- Evaluating the run loop when the step continues. -/
theorem runGo_step_cont {c : Computer} {t : Test} {cycles : Nat}
    {h : cycles ≤ t.max_cycles} {c' : Computer} {t' : Test}
    (hs : Test.step c t cycles = Except.ok (false, c', t'))
    (h' : cycles + 1 ≤ t'.max_cycles) :
    Test.runGo c t cycles h = Test.runGo c' t' (cycles + 1) h' := by
  rw [Test.runGo]
  split
  · rename_i e' hstep
    rw [hs] at hstep
    cases hstep
  · rename_i c'' t'' hstep
    rw [hs] at hstep
    cases hstep
  · rename_i c'' t'' hstep
    rw [hs] at hstep
    cases hstep
    rfl

/-- Any `RunOutOfCycles` error escaping the run loop carries exactly
`max_cycles` as its cycle count. -/
theorem runGo_cycles_err (c : Computer) (t : Test) (cycles : Nat)
    (h : cycles ≤ t.max_cycles) (e : TestErr)
    (herr : Test.runGo c t cycles h = Except.error e)
    (hroc : e.err = TestError.RunOutOfCycles) : e.cycles = t.max_cycles := by
  generalize hm : t.max_cycles - cycles = n at *
  induction n generalizing c t cycles with
  | zero =>
    have hcy : cycles = t.max_cycles := by omega
    rw [runGo_step_error ((test_step_cases c t cycles).1 hcy)] at herr
    cases herr
    exact hcy
  | succ n ih =>
    have hne : ¬(cycles = t.max_cycles) := by omega
    cases hstep : Test.step c t cycles with
    | error e' =>
      rw [runGo_step_error hstep] at herr
      cases herr
      exact absurd hroc (((test_step_cases c t cycles).2 hne).1 e hstep).1
    | ok r =>
      obtain ⟨d, c', t'⟩ := r
      cases d with
      | true =>
        rw [runGo_step_done hstep] at herr
        cases herr
      | false =>
        have hmax := ((test_step_cases c t cycles).2 hne).2 false c' t' hstep
        rw [runGo_step_cont hstep (by omega)] at herr
        exact Trans.trans
          (ih c' t' (cycles + 1) (by omega) herr (by omega)) hmax.1

/-- C6: (a) `Test::run` reports `RunOutOfCycles` at exactly `max_cycles`
cycles; (b) one `Test::step` fails with `RunOutOfCycles` exactly when the
cycle counter has reached `max_cycles` before the computer reached `Halted`
or `ReachedEnd`; and (c) when the loop finishes normally, leftover expected
inputs give `ExpectedMoreInputs`, otherwise leftover expected outputs give
`ExpectedMoreOutputs`, otherwise the run succeeds — a prefix match is not
accepted. -/
theorem c6_tester_rules :
    (∀ (c : Computer) (t : Test) (e : TestErr),
      Test.run t c = Except.error e → e.err = TestError.RunOutOfCycles →
      e.cycles = t.max_cycles) ∧
    (∀ (c : Computer) (t : Test) (cycles : Nat),
      (∃ e, Test.step c t cycles = Except.error e ∧ e.err = TestError.RunOutOfCycles)
        ↔ cycles = t.max_cycles) ∧
    (∀ (c c' : Computer) (t t' : Test) (n : Nat),
      Test.runGo c t 0 (Nat.zero_le _) = Except.ok (c', t', n) →
      Test.run t c = (if t'.inputs ≠ [] then
          Except.error ⟨t'.name, n, TestError.ExpectedMoreInputs⟩
        else if t'.outputs ≠ [] then
          Except.error ⟨t'.name, n, TestError.ExpectedMoreOutputs⟩
        else Except.ok n)) := by
  refine ⟨?_, ?_, ?_⟩
  · intro c t e herr hroc
    rw [Test.run] at herr
    revert herr
    split
    · rename_i e' hgo
      intro herr
      cases herr
      exact runGo_cycles_err c t 0 (Nat.zero_le _) e hgo hroc
    · rename_i c' t' n hgo
      intro herr
      split at herr
      · cases herr
        cases hroc
      · split at herr
        · cases herr
          cases hroc
        · cases herr
  · intro c t cycles
    constructor
    · rintro ⟨e, he, hroc⟩
      by_contra hne
      exact absurd hroc (((test_step_cases c t cycles).2 hne).1 e he).1
    · intro hcy
      exact ⟨⟨t.name, cycles, TestError.RunOutOfCycles⟩,
        (test_step_cases c t cycles).1 hcy, rfl⟩
  · intro c c' t t' n hgo
    rw [Test.run, hgo]

/-- Witness for C6: a zero-budget test fails with `RunOutOfCycles` at its
`max_cycles`, and an immediately halting program with one unconsumed
expected input fails with `ExpectedMoreInputs`. -/
theorem c6_tester_rules_witness :
    (⟨none, 0, TestError.RunOutOfCycles⟩ : TestErr).cycles
      = (⟨none, 0, ([] : List Nat), ([] : List Nat)⟩ : Test).max_cycles ∧
    Test.run ⟨none, 5, [7], []⟩ (Computer.new (List.replicate 100 0))
      = Except.error ⟨none, 1, TestError.ExpectedMoreInputs⟩ := by
  constructor
  · refine c6_tester_rules.1 (Computer.new (List.replicate 100 0))
      ⟨none, 0, [], []⟩ ⟨none, 0, TestError.RunOutOfCycles⟩ ?_ rfl
    rw [Test.run, runGo_step_error
      ((test_step_cases (Computer.new (List.replicate 100 0)) ⟨none, 0, [], []⟩ 0).1 rfl)]
  · have hstate : (Computer.new (List.replicate 100 0)).step.state = State.Halted := by
      decide
    have hstep : Test.step (Computer.new (List.replicate 100 0)) ⟨none, 5, [7], []⟩ 0
        = Except.ok (true, (Computer.new (List.replicate 100 0)).step,
            ⟨none, 5, [7], []⟩) := by
      rfl
    have hgo : Test.runGo (Computer.new (List.replicate 100 0)) ⟨none, 5, [7], []⟩ 0
        (Nat.zero_le _)
        = Except.ok ((Computer.new (List.replicate 100 0)).step, ⟨none, 5, [7], []⟩, 1) :=
      runGo_step_done hstep
    have := c6_tester_rules.2.2 (Computer.new (List.replicate 100 0))
      (Computer.new (List.replicate 100 0)).step ⟨none, 5, [7], []⟩ ⟨none, 5, [7], []⟩
      1 hgo
    simpa using this

end LMinC
